import Mathlib

/-!
Verification development for `scripts/find_structural_firms_uk.py`, a
single-file pipeline that discovers nearby businesses through a paginated
places-search collaborator, enriches each candidate with detail lookup,
scans each business website for role-based recruitment e-mail addresses,
and accumulates output rows across runs under a persistent seen-state
ledger.

The Python source is shallowly embedded below.  Conventions:

* Network collaborators (`place_details`, the website fetcher, the search
  service) are passed as explicit function arguments; an exception raised
  by a collaborator is modelled as `Option.none`.
* Python strings are Lean `String`s; character classes of the source are
  modelled over ASCII (the script's patterns and vocabulary are ASCII).
* Python float distances are modelled over `ℚ`; the trigonometric
  haversine value itself is supplied by an oracle argument `hav`, while
  the exact real-valued formula of the source is embedded separately as
  `haversine_km` over `ℝ` to ground range facts about it.
* `time.sleep` politeness delays inside loops have no observable effect
  on the data flow and are not modelled, except in the search-protocol
  trace model where the claim under scrutiny is about waiting.
* The `run_date_utc` column is wall-clock time and is omitted from the
  embedded row.
-/

/-! ### Character helpers (ASCII model of the script's character classes) -/

/-- Word character of the regex metacharacter used for word boundaries,
ASCII fragment: letters, digits and underscore. -/
def isWordChar (c : Char) : Bool :=
  c.isAlpha || c.isDigit || c = '_'

/-- Character class of the domain body in `GENERIC_EMAIL`, source line 31:
letters, digits, dot and hyphen. -/
def isDomChar (c : Char) : Bool :=
  c.isAlpha || c.isDigit || c = '.' || c = '-'

/-- Lower-casing of a whole string, char by char (Python `str.lower`,
ASCII fragment). -/
def lowerStr (s : String) : String :=
  ⟨s.data.map Char.toLower⟩

/-! ### The role-based e-mail pattern `GENERIC_EMAIL` (source lines 29-33)

The pattern is
`\b(careers|recruitment|recruiting|jobs|talent|people|hiring|vacancies|hr)`
`@[A-Za-z0-9.-]+\.[A-Za-z]{2,}\b` with the case-insensitive flag.  Match
existence is embedded twice: `genericEmailSearch` is an executable
position-scanning matcher, and `roleEmailSpecMatch` is the
string-decomposition reading of the specification sentence; the claim
theorem for C3 proves the two agree. -/

/-- Role-word vocabulary of the alternation in `GENERIC_EMAIL`. -/
def ROLE_WORDS : List String :=
  ["careers", "recruitment", "recruiting", "jobs", "talent", "people",
   "hiring", "vacancies", "hr"]

/-- Word-boundary test before a match: holds when nothing precedes the
match or the preceding character is not a word character. -/
def boundaryBefore (pre : List Char) : Bool :=
  match pre.getLast? with
  | none => true
  | some c => !(isWordChar c)

/-- Word-boundary test after a match: holds at end of input or when the
next character is not a word character. -/
def boundaryAfter (post : List Char) : Bool :=
  match post.head? with
  | none => true
  | some c => !(isWordChar c)

/-- Existence of a match of `[A-Za-z0-9.-]+\.[A-Za-z]{2,}\b` at the start
of `ds`, by bounded search over the body and top-level-domain lengths. -/
def domainSearch (ds : List Char) : Bool :=
  (List.range (ds.length + 1)).any fun b =>
    decide (1 ≤ b) && decide ((ds.take b).length = b) &&
    (ds.take b).all isDomChar && ((ds.drop b).head? == some '.') &&
    ((List.range ((ds.drop (b + 1)).length + 1)).any fun t =>
      decide (2 ≤ t) && decide (((ds.drop (b + 1)).take t).length = t) &&
      ((ds.drop (b + 1)).take t).all Char.isAlpha &&
      boundaryAfter ((ds.drop (b + 1)).drop t))

/-- Existence of a match of `GENERIC_EMAIL` anywhere in `cs`
(`re.search` / `re.finditer` non-emptiness): some start position has a
word boundary, a case-insensitive role word, `@`, and a domain part. -/
def genericEmailSearch (cs : List Char) : Bool :=
  (List.range cs.length).any fun i =>
    boundaryBefore (cs.take i) &&
    (ROLE_WORDS.any fun w =>
      decide (((cs.drop i).take w.length).map Char.toLower = w.data) &&
      (((cs.drop i).drop w.length).head? == some '@') &&
      domainSearch ((cs.drop i).drop (w.length + 1)))

/-- Specification-side reading of the domain part: a non-empty body over
`[A-Za-z0-9.-]`, a literal dot, a top-level domain of at least two
letters, and a word boundary after it. -/
def domainLike (dom : List Char) : Prop :=
  ∃ body tld post : List Char,
    dom = body ++ '.' :: (tld ++ post) ∧ body ≠ [] ∧
    body.all isDomChar = true ∧ 2 ≤ tld.length ∧
    tld.all Char.isAlpha = true ∧ boundaryAfter post = true

/-- Specification-side characterization of the pattern: the string
contains, at a word boundary, one of the role words (case-insensitively)
immediately followed by `@` and a domain-like suffix. -/
def roleEmailSpecMatch (cs : List Char) : Prop :=
  ∃ pre w dom : List Char, ∃ wd ∈ ROLE_WORDS,
    cs = pre ++ w ++ '@' :: dom ∧ w.map Char.toLower = wd.data ∧
    boundaryBefore pre = true ∧ domainLike dom


/-! ### Lemmas for claim C3 -/

lemma head?_drop_cons {ds : List Char} {b : ℕ} {c : Char}
    (h : (ds.drop b).head? = some c) : ds.drop b = c :: ds.drop (b + 1) := by
  have h3 : (ds.drop b).tail = ds.drop (b + 1) := List.tail_drop ds b
  cases hds : ds.drop b with
  | nil => rw [hds] at h; exact absurd h (by simp)
  | cons a rest =>
    rw [hds] at h h3
    simp only [List.head?_cons, Option.some.injEq] at h
    simp only [List.tail_cons] at h3
    rw [h, h3]

lemma domainSearch_iff (ds : List Char) : domainSearch ds = true ↔ domainLike ds := by
  unfold domainSearch domainLike
  simp only [List.any_eq_true, List.mem_range, Bool.and_eq_true, decide_eq_true_eq,
    beq_iff_eq]
  constructor
  · rintro ⟨b, -, ⟨⟨⟨hb1, hblen⟩, hbdom⟩, hdot⟩, t, -, ⟨⟨ht2, htlen⟩, htal⟩, htb⟩
    refine ⟨ds.take b, (ds.drop (b + 1)).take t, (ds.drop (b + 1)).drop t, ?_, ?_, hbdom,
      ?_, htal, htb⟩
    · conv_lhs => rw [← List.take_append_drop b ds]
      rw [head?_drop_cons hdot, List.take_append_drop]
    · intro h
      have h2 := congrArg List.length h
      rw [hblen] at h2
      simp at h2
      omega
    · rw [htlen]; exact ht2
  · rintro ⟨body, tld, post, hds, hne, hbdom, ht2, htal, htb⟩
    have hlb : ds.take body.length = body := by rw [hds, List.take_left]
    have hdb : ds.drop body.length = '.' :: (tld ++ post) := by rw [hds, List.drop_left]
    have hdb1 : ds.drop (body.length + 1) = tld ++ post := by
      rw [← List.tail_drop, hdb]; rfl
    have hbpos : 0 < body.length := List.length_pos.mpr hne
    have hdslen : ds.length = body.length + 1 + (tld.length + post.length) := by
      rw [hds]; simp; omega
    refine ⟨body.length, by omega, ⟨⟨⟨hbpos, ?_⟩, ?_⟩, ?_⟩, tld.length, ?_, ⟨⟨ht2, ?_⟩, ?_⟩, ?_⟩
    · rw [hlb]
    · rw [hlb]; exact hbdom
    · rw [hdb]; rfl
    · have h2 := congrArg List.length hdb1
      simp only [List.length_append] at h2
      omega
    · rw [hdb1, List.take_left]
    · rw [hdb1, List.take_left]; exact htal
    · rw [hdb1, List.drop_left]; exact htb

lemma roleWord_ne_nil {wd : String} (h : wd ∈ ROLE_WORDS) : wd.data ≠ [] := by
  fin_cases h <;> decide

lemma genericEmailSearch_iff (cs : List Char) :
    genericEmailSearch cs = true ↔ roleEmailSpecMatch cs := by
  unfold genericEmailSearch roleEmailSpecMatch
  simp only [List.any_eq_true, List.mem_range, Bool.and_eq_true, decide_eq_true_eq,
    beq_iff_eq]
  constructor
  · rintro ⟨i, -, hbnd, w, hw, ⟨hmap, hat⟩, hdom⟩
    refine ⟨cs.take i, (cs.drop i).take w.length, (cs.drop i).drop (w.length + 1),
      w, hw, ?_, hmap, hbnd, (domainSearch_iff _).mp hdom⟩
    have h1 : (cs.drop i).drop w.length = '@' :: (cs.drop i).drop (w.length + 1) :=
      head?_drop_cons hat
    conv_lhs => rw [← List.take_append_drop i cs]
    conv_lhs => rw [← List.take_append_drop w.length (cs.drop i), h1]
    rw [List.append_assoc]
  · rintro ⟨pre, w, dom, wd, hwd, hcs, hmap, hbnd, hdom⟩
    have hsl : wd.length = wd.data.length := rfl
    have hwlen : w.length = wd.data.length := by
      have h2 := congrArg List.length hmap
      simpa using h2
    have hdrop : cs.drop pre.length = w ++ '@' :: dom := by
      rw [hcs, List.append_assoc, List.drop_left]
    have htake : cs.take pre.length = pre := by
      rw [hcs, List.append_assoc, List.take_left]
    have hwne : w ≠ [] := by
      intro h
      rw [h] at hmap
      exact roleWord_ne_nil hwd hmap.symm
    have hwpos : 0 < w.length := List.length_pos.mpr hwne
    have hcslen : cs.length = pre.length + (w.length + 1 + dom.length) := by
      rw [hcs]; simp; omega
    have hd1 : (cs.drop pre.length).take w.length = w := by
      rw [hdrop]; exact List.take_left w _
    have hd2 : (cs.drop pre.length).drop w.length = '@' :: dom := by
      rw [hdrop]; exact List.drop_left w _
    refine ⟨pre.length, by omega, ?_, wd, hwd, ⟨?_, ?_⟩, ?_⟩
    · rw [htake]; exact hbnd
    · rw [hsl, ← hwlen, hd1]; exact hmap
    · rw [hsl, ← hwlen, hd2]; rfl
    · have h3 : (cs.drop pre.length).drop (w.length + 1) = dom := by
        rw [← List.tail_drop, hd2]; rfl
      rw [hsl, ← hwlen, h3]
      exact (domainSearch_iff _).mpr hdom

/-- C3.  The extraction pattern `GENERIC_EMAIL` matches a string exactly
when the string contains, at a word boundary, one of the role words
(careers, recruitment, recruiting, jobs, talent, people, hiring,
vacancies, hr) matched case-insensitively, immediately followed by `@`
and a domain-like suffix; in particular `"careers@firm.co.uk"` matches
and `"john.smith@firm.co.uk"` does not. -/
theorem c3_role_email_matching :
    (∀ cs : List Char, genericEmailSearch cs = true ↔ roleEmailSpecMatch cs) ∧
    genericEmailSearch ("careers@firm.co.uk").data = true ∧
    genericEmailSearch ("john.smith@firm.co.uk").data = false :=
  ⟨genericEmailSearch_iff, by decide, by decide⟩

/-! ### The matched-literal extraction engine (`re.finditer` over
`GENERIC_EMAIL`, used by `extract_generic_emails_from_site`)

`tldSearch` and `bodySearch` mirror the greedy, backtracking quantifiers
of the pattern (longest attempt first), `matchVocab` the alternation, and
`scanAux` the left-to-right non-overlapping scan of `finditer`.  Only the
resulting set of matched literals feeds the pipeline. -/

/-- Greedy match of `[A-Za-z]{2,}\b` at the start of `ds`: tries the
length `m` first, then backtracks down to 2.  Returns the consumed
length. -/
def tldSearch (ds : List Char) : ℕ → Option ℕ
  | 0 => none
  | 1 => none
  | m + 2 =>
    if ((ds.take (m + 2)).length = m + 2) ∧ (ds.take (m + 2)).all Char.isAlpha = true ∧
        boundaryAfter (ds.drop (m + 2)) = true then
      some (m + 2)
    else tldSearch ds (m + 1)

/-- Greedy match of `[A-Za-z0-9.-]+\.[A-Za-z]{2,}\b` at the start of
`ds`: tries body length `b` first, then backtracks.  Returns the consumed
length. -/
def bodySearch (ds : List Char) : ℕ → Option ℕ
  | 0 => none
  | b + 1 =>
    if ((ds.take (b + 1)).length = b + 1) ∧ (ds.take (b + 1)).all isDomChar = true ∧
        (ds.drop (b + 1)).head? = some '.' then
      match tldSearch (ds.drop (b + 2)) (ds.drop (b + 2)).length with
      | some m => some (b + 1 + 1 + m)
      | none => bodySearch ds b
    else bodySearch ds b

/-- Alternation over the role words at the start of `cs` (the boundary
before `cs` is checked by the caller): case-insensitive word, then `@`,
then the domain part.  Returns the consumed length of the whole match. -/
def matchVocab (cs : List Char) : List String → Option ℕ
  | [] => none
  | w :: ws =>
    if ((cs.take w.length).map Char.toLower = w.data) ∧
        (cs.drop w.length).head? = some '@' then
      match bodySearch (cs.drop (w.length + 1)) (cs.drop (w.length + 1)).length with
      | some n => some (w.length + 1 + n)
      | none => matchVocab cs ws
    else matchVocab cs ws

/-- Left-to-right scan collecting non-overlapping matched literals.
`bOk` records whether a word boundary holds at the current position;
`fuel` is an upper bound on the remaining length. -/
def scanAux : ℕ → Bool → List Char → List (List Char)
  | 0, _, _ => []
  | _ + 1, _, [] => []
  | fuel + 1, bOk, c :: rest =>
    match (if bOk then matchVocab (c :: rest) ROLE_WORDS else none) with
    | some n =>
      let lit := (c :: rest).take n
      let nb := match lit.getLast? with
        | none => bOk
        | some d => !isWordChar d
      lit :: scanAux fuel nb ((c :: rest).drop n)
    | none => scanAux fuel (!isWordChar c) rest

/-- Set of matched literals of `GENERIC_EMAIL` in a page
(`found.add(m.group(0))` over `GENERIC_EMAIL.finditer(html)`,
source lines 83-84). -/
def extractMatches (html : String) : Finset String :=
  ((scanAux html.data.length true html.data).map fun l => (⟨l⟩ : String)).toFinset

/-! ### Url parsing (`urllib.parse.urlparse`, scheme and netloc only) and
`normalize_base` (source lines 64-71) -/

/-- Scheme characters after the leading letter, as accepted by
`urllib.parse`. -/
def isSchemeChar (c : Char) : Bool :=
  c.isAlpha || c.isDigit || c = '+' || c = '-' || c = '.'

/-- Scheme detection of `urllib.parse`: a non-empty prefix before the
first colon, starting with a letter and made of scheme characters; the
scheme is returned lower-cased together with the remainder. -/
def schemeSplit (cs : List Char) : Option (List Char × List Char) :=
  match cs.dropWhile (fun c => c != ':') with
  | ':' :: rest =>
    match cs.takeWhile (fun c => c != ':') with
    | [] => none
    | c :: cs2 =>
      if c.isAlpha && (c :: cs2).all isSchemeChar then
        some ((c :: cs2).map Char.toLower, rest)
      else none
  | _ => none

/-- Netloc of `urllib.parse`: present only after a literal `//`, up to
the next `/`, `?` or `#`. -/
def netlocOf (rest : List Char) : List Char :=
  match rest with
  | '/' :: '/' :: r => r.takeWhile fun c => (c != '/') && (c != '?') && (c != '#')
  | _ => []

/-- The `(scheme, netloc)` projections of `urllib.parse.urlparse`. -/
def urlparseSN (s : String) : String × String :=
  match schemeSplit s.data with
  | some (sch, rest) => (⟨sch⟩, ⟨netlocOf rest⟩)
  | none => ("", ⟨netlocOf s.data⟩)

/-- Source lines 64-71: empty input maps to the empty origin; a missing
scheme makes the input re-parsed with an `https://` prefix; the result is
`scheme://netloc`. -/
def normalize_base (website : String) : String :=
  if website = "" then ""
  else
    let p := urlparseSN website
    if p.1 = "" then
      let p2 := urlparseSN ("https://" ++ website)
      p2.1 ++ "://" ++ p2.2
    else
      p.1 ++ "://" ++ p.2

/-- Domain of a normalized base as computed at source line 234:
`urlparse(base).netloc.lower() if base else ""`. -/
def domainOfBase (base : String) : String :=
  if base = "" then "" else lowerStr (urlparseSN base).2

/-! ### The site scanner `extract_generic_emails_from_site`
(source lines 73-86) -/

/-- Fixed probe list `CANDIDATE_PATHS` (source lines 35-39). -/
def CANDIDATE_PATHS : List String :=
  ["/", "/careers", "/careers/", "/jobs", "/jobs/", "/join-us", "/join-us/",
   "/work-with-us", "/work-with-us/", "/contact", "/contact/", "/contact-us",
   "/contact-us/", "/vacancies", "/vacancies/", "/join", "/join/"]

/-- Loop of `extract_generic_emails_from_site` over a path list.
`urljoin(base, path)` is `base ++ path` here: every candidate path is
absolute and the base is a path-less origin.  A fetch failure (`none`,
modelling any requests exception) skips the single path; a success
appends the url to the checked list and accumulates the matches. -/
def scanPaths (fetch : String → Option String) (base : String) :
    List String → Finset String × List String
  | [] => (∅, [])
  | path :: rest =>
    match fetch (base ++ path) with
    | none => scanPaths fetch base rest
    | some html =>
      let fc := scanPaths fetch base rest
      (extractMatches html ∪ fc.1, (base ++ path) :: fc.2)

/-- Source lines 73-86: the sorted list of matched addresses found on the
successfully fetched pages, and the checked-url list in probe order. -/
def extract_generic_emails_from_site (fetch : String → Option String)
    (base : String) : List String × List String :=
  ((scanPaths fetch base CANDIDATE_PATHS).1.sort (· ≤ ·),
   (scanPaths fetch base CANDIDATE_PATHS).2)

/-! ### Data model of the pipeline (`main`, source lines 198-275) -/

/-- Raw search-result place: `p.get("id")`, `location.latitude`,
`location.longitude`, `displayName.text`.  Coordinates are modelled over
`ℚ`. -/
structure Place where
  id : Option String
  lat : Option ℚ
  lng : Option ℚ
  name : String
deriving DecidableEq

/-- Detail-lookup record (`place_details` response projected through the
accessors of source lines 232-248, with `get` defaults applied). -/
structure Details where
  name : String
  formattedAddress : String
  internationalPhoneNumber : String
  websiteUri : String
  googleMapsUri : String
deriving DecidableEq

/-- Output row (source lines 250-262).  `distance_km` is `none` for the
blank cell; `run_date_utc` is wall-clock time and is omitted. -/
structure Row where
  company_name : String
  distance_km : Option ℚ
  address : String
  phone : String
  website : String
  emails : String
  pages_checked : String
  google_maps_place_url : String
  place_id : String
  domain : String
deriving DecidableEq

/-- In-memory seen state: the two sets built at source lines 200-201. -/
structure Seen where
  ids : Finset String
  domains : Finset String
deriving DecidableEq

/-- Loop state of `main`: the two seen sets and `selected_rows`. -/
structure RunState where
  seenIds : Finset String
  seenDomains : Finset String
  rows : List Row
deriving DecidableEq

/-- Loading the seen-state file (source lines 199-201): the persisted
string arrays are read into sets. -/
def loadSeen (ids domains : List String) : Seen :=
  ⟨ids.toFinset, domains.toFinset⟩

/-- Banker's rounding of a rational to an integer (Python `round` on the
modelled exact value). -/
def roundHalfEven (x : ℚ) : ℤ :=
  let f := ⌊x⌋
  if x - f < 1 / 2 then f
  else if (1 : ℚ) / 2 < x - f then f + 1
  else if 2 ∣ f then f else f + 1

/-- Python `round(x, 1)`, modelled exactly over `ℚ`. -/
def round1 (x : ℚ) : ℚ :=
  (roundHalfEven (x * 10) : ℚ) / 10

/-- Enriched candidate tuple `(dist, pid, place)` of source line 214. -/
abbrev Cand := ℚ × Option String × Place

/-- Distance of one candidate (source lines 210-213): the haversine
value when both coordinates are present and the sentinel `9999.0`
otherwise.  `hav` is the oracle standing for the real-valued
`haversine_km` from home. -/
def candDist (hav : ℚ × ℚ → ℚ × ℚ → ℚ) (home : ℚ × ℚ) (p : Place) : ℚ :=
  match p.lat, p.lng with
  | some a, some b => hav home (a, b)
  | _, _ => (9999 : ℚ)

/-- Source lines 207-214: the enriched `(dist, pid, place)` list. -/
def enrichPlaces (hav : ℚ × ℚ → ℚ × ℚ → ℚ) (home : ℚ × ℚ)
    (ps : List Place) : List Cand :=
  ps.map fun p => (candDist hav home p, p.id, p)

/-- Source line 215: `enriched.sort(key=lambda x: x[0])` — a stable sort
on the distance component only. -/
def sortByDist (l : List Cand) : List Cand :=
  l.insertionSort fun x y => x.1 ≤ y.1

/-- Domain of a candidate with detail record `d` (source lines 232-234):
`urlparse(normalize_base(det.get("websiteUri","") or "")).netloc.lower()`
when the base is non-empty, else the empty string. -/
def candDomain (d : Details) : String :=
  domainOfBase (normalize_base d.websiteUri)

/-- Site-scan result used in the row (source lines 241-243): the scan of
the normalized base when a website is present, else empty findings. -/
def scanResult (fetch : String → Option String) (d : Details) :
    List String × List String :=
  if normalize_base d.websiteUri ≠ "" then
    extract_generic_emails_from_site fetch (normalize_base d.websiteUri)
  else ([], [])

/-- Marking a place id seen without emitting a row (source lines 229 and
238). -/
def markSeen (st : RunState) (pid : String) : RunState :=
  { st with seenIds := insert pid st.seenIds }

/-- Row assembly for an accepted candidate (source lines 250-262). -/
def acceptedRow (fetch : String → Option String) (c : Cand) (pid : String)
    (d : Details) : Row :=
  { company_name := d.name
    distance_km := if c.1 < 9000 then some (round1 c.1) else none
    address := d.formattedAddress
    phone := d.internationalPhoneNumber
    website := d.websiteUri
    emails := String.intercalate (" | ") (scanResult fetch d).1
    pages_checked := String.intercalate (" | ") ((scanResult fetch d).2.take 6)
    google_maps_place_url := d.googleMapsUri
    place_id := pid
    domain := candDomain d }

/-- Accepting a candidate (source lines 250-268): append the row and mark
the id — and the domain when non-empty — seen immediately. -/
def acceptCand (fetch : String → Option String) (st : RunState) (c : Cand)
    (pid : String) (d : Details) : RunState :=
  { seenIds := insert pid st.seenIds
    seenDomains := if candDomain d ≠ "" then insert (candDomain d) st.seenDomains
                   else st.seenDomains
    rows := st.rows ++ [acceptedRow fetch c pid d] }

/-- Loop body of `main` (source lines 218-270) acting on one candidate:
cap check (`break` is the identity once the cap is reached, see
`foldl_processCandidate_of_full`), falsy/seen place-id skips, detail
lookup (failure marks the id seen), domain dedup (marks the id seen), and
acceptance. -/
def processCandidate (k : ℕ) (det : String → Option Details)
    (fetch : String → Option String) (st : RunState) (c : Cand) : RunState :=
  if k ≤ st.rows.length then st
  else
    match c.2.1 with
    | none => st
    | some pid =>
      if pid = "" then st
      else if pid ∈ st.seenIds then st
      else
        match det pid with
        | none => markSeen st pid
        | some d =>
          if candDomain d ≠ "" ∧ candDomain d ∈ st.seenDomains then markSeen st pid
          else acceptCand fetch st c pid d

/-- The whole of `main` up to persisting (source lines 198-270), with the
collaborators as arguments: load, search, enrich, sort, iterate. -/
def runMain (k : ℕ) (hav : ℚ × ℚ → ℚ × ℚ → ℚ) (home : ℚ × ℚ) (seen0 : Seen)
    (places : List Place) (det : String → Option Details)
    (fetch : String → Option String) : RunState :=
  (sortByDist (enrichPlaces hav home places)).foldl (processCandidate k det fetch)
    ⟨seen0.ids, seen0.domains, []⟩

/-- Persisting the seen state (source lines 272-275 and 96-98):
`sorted(set)` for both arrays. -/
def persisted (st : RunState) : List String × List String :=
  (st.seenIds.sort (· ≤ ·), st.seenDomains.sort (· ≤ ·))

/-! ### The real-valued haversine formula (source lines 56-62), embedded
over `ℝ` to ground range facts about the distance oracle -/

/-- Degree-to-radian conversion `math.radians`. -/
noncomputable def radiansR (x : ℝ) : ℝ := x * Real.pi / 180

/-- Great-circle distance `haversine_km` (source lines 56-62). -/
noncomputable def haversine_km (lat1 lon1 lat2 lon2 : ℝ) : ℝ :=
  let p1 := radiansR lat1
  let p2 := radiansR lat2
  let dlat := radiansR (lat2 - lat1)
  let dlon := radiansR (lon2 - lon1)
  let a := Real.sin (dlat / 2) ^ 2 +
    Real.cos p1 * Real.cos p2 * Real.sin (dlon / 2) ^ 2
  2 * 6371 * Real.arcsin (Real.sqrt a)

/-! ### Interaction trace of `places_search_text` (source lines 155-174)

The function builds one request body with `textQuery`, `maxResultCount`,
`rankPreference` and `locationBias` — and no page token — performs a
single `http_post`, and returns `data.get("places", [])`.  The response's
continuation token, if any, is never read, and no second request is
issued. -/

/-- Observable actions of the search client. -/
inductive SearchAction where
  | postSearch (pageToken : Option String)
  | wait (ms : ℕ)
deriving DecidableEq

/-- Search-service response: raw places and an optional continuation
token. -/
structure SearchResponse where
  places : List Place
  nextPageToken : Option String

/-- Value returned by `places_search_text`: `data.get("places", [])`. -/
def places_search_text (resp : SearchResponse) : List Place :=
  resp.places

/-- Request/wait trace of one call of `places_search_text`: exactly one
tokenless POST, whatever the response contains. -/
def placesSearchTrace (_resp : SearchResponse) : List SearchAction :=
  [SearchAction.postSearch none]

/-- Recognizer of continuation-page requests in a trace. -/
def isContinuationReq : SearchAction → Bool
  | SearchAction.postSearch (some _) => true
  | _ => false

/-! ### Structural lemmas about the loop -/

lemma loadSeen_persisted (st : RunState) :
    loadSeen (persisted st).1 (persisted st).2 = ⟨st.seenIds, st.seenDomains⟩ := by
  simp [loadSeen, persisted, Finset.sort_toFinset]

lemma processCandidate_some (k : ℕ) (det : String → Option Details)
    (fetch : String → Option String) (st : RunState) (c : Cand) (pid : String)
    (hc : c.2.1 = some pid) (hk : st.rows.length < k) :
    processCandidate k det fetch st c =
      (if pid = "" then st
       else if pid ∈ st.seenIds then st
       else match det pid with
         | none => markSeen st pid
         | some d =>
           if candDomain d ≠ "" ∧ candDomain d ∈ st.seenDomains then markSeen st pid
           else acceptCand fetch st c pid d) := by
  unfold processCandidate
  rw [if_neg (Nat.not_le.mpr hk), hc]

/-- Exhaustive case description of one loop iteration. -/
lemma processCandidate_cases (k : ℕ) (det : String → Option Details)
    (fetch : String → Option String) (st : RunState) (c : Cand) :
    ((k ≤ st.rows.length ∨ c.2.1 = none ∨
        ∃ pid, c.2.1 = some pid ∧ (pid = "" ∨ pid ∈ st.seenIds)) ∧
      processCandidate k det fetch st c = st) ∨
    (∃ pid, c.2.1 = some pid ∧ pid ≠ "" ∧ pid ∉ st.seenIds ∧
      st.rows.length < k ∧ det pid = none ∧
      processCandidate k det fetch st c = markSeen st pid) ∨
    (∃ pid d, c.2.1 = some pid ∧ pid ≠ "" ∧ pid ∉ st.seenIds ∧
      st.rows.length < k ∧ det pid = some d ∧
      candDomain d ≠ "" ∧ candDomain d ∈ st.seenDomains ∧
      processCandidate k det fetch st c = markSeen st pid) ∨
    (∃ pid d, c.2.1 = some pid ∧ pid ≠ "" ∧ pid ∉ st.seenIds ∧
      st.rows.length < k ∧ det pid = some d ∧
      ¬(candDomain d ≠ "" ∧ candDomain d ∈ st.seenDomains) ∧
      processCandidate k det fetch st c = acceptCand fetch st c pid d) := by
  by_cases hk : k ≤ st.rows.length
  · exact Or.inl ⟨Or.inl hk, by unfold processCandidate; rw [if_pos hk]⟩
  have hk2 : st.rows.length < k := Nat.lt_of_not_le hk
  cases hc : c.2.1 with
  | none =>
    refine Or.inl ⟨Or.inr (Or.inl rfl), ?_⟩
    unfold processCandidate
    rw [if_neg hk, hc]
  | some pid =>
    have hred := processCandidate_some k det fetch st c pid hc hk2
    by_cases hpe : pid = ""
    · exact Or.inl ⟨Or.inr (Or.inr ⟨pid, rfl, Or.inl hpe⟩), by rw [hred, if_pos hpe]⟩
    rw [if_neg hpe] at hred
    by_cases hps : pid ∈ st.seenIds
    · exact Or.inl ⟨Or.inr (Or.inr ⟨pid, rfl, Or.inr hps⟩), by rw [hred, if_pos hps]⟩
    rw [if_neg hps] at hred
    cases hd : det pid with
    | none =>
      rw [hd] at hred
      dsimp only at hred
      exact Or.inr (Or.inl ⟨pid, rfl, hpe, hps, hk2, hd, hred⟩)
    | some d =>
      rw [hd] at hred
      dsimp only at hred
      by_cases hdom : candDomain d ≠ "" ∧ candDomain d ∈ st.seenDomains
      · rw [if_pos hdom] at hred
        exact Or.inr (Or.inr (Or.inl ⟨pid, d, rfl, hpe, hps, hk2, hd, hdom.1, hdom.2, hred⟩))
      · rw [if_neg hdom] at hred
        exact Or.inr (Or.inr (Or.inr ⟨pid, d, rfl, hpe, hps, hk2, hd, hdom, hred⟩))

lemma processCandidate_seenIds_subset (k : ℕ) (det : String → Option Details)
    (fetch : String → Option String) (st : RunState) (c : Cand) :
    st.seenIds ⊆ (processCandidate k det fetch st c).seenIds := by
  rcases processCandidate_cases k det fetch st c with ⟨-, h⟩ |
    ⟨pid, -, -, -, -, -, h⟩ | ⟨pid, d, -, -, -, -, -, -, -, h⟩ | ⟨pid, d, -, -, -, -, -, -, h⟩ <;>
    rw [h]
  all_goals first
  | exact Finset.Subset.refl _
  | exact Finset.subset_insert _ _

lemma processCandidate_seenDomains_subset (k : ℕ) (det : String → Option Details)
    (fetch : String → Option String) (st : RunState) (c : Cand) :
    st.seenDomains ⊆ (processCandidate k det fetch st c).seenDomains := by
  rcases processCandidate_cases k det fetch st c with ⟨-, h⟩ |
    ⟨pid, -, -, -, -, -, h⟩ | ⟨pid, d, -, -, -, -, -, -, -, h⟩ | ⟨pid, d, -, -, -, -, -, -, h⟩ <;>
    rw [h]
  all_goals first
  | exact Finset.Subset.refl _
  | (unfold acceptCand
     dsimp only
     split
     · exact Finset.subset_insert _ _
     · exact Finset.Subset.refl _)

lemma processCandidate_rows_append (k : ℕ) (det : String → Option Details)
    (fetch : String → Option String) (st : RunState) (c : Cand) :
    ∃ t, (processCandidate k det fetch st c).rows = st.rows ++ t := by
  rcases processCandidate_cases k det fetch st c with ⟨-, h⟩ |
    ⟨pid, -, -, -, -, -, h⟩ | ⟨pid, d, -, -, -, -, -, -, -, h⟩ | ⟨pid, d, -, -, -, -, -, -, h⟩ <;>
    rw [h]
  all_goals first
  | (refine ⟨[], ?_⟩
     simp [markSeen]
     done)
  | exact ⟨[acceptedRow fetch c pid d], rfl⟩

lemma foldl_seenIds_subset (k : ℕ) (det : String → Option Details)
    (fetch : String → Option String) (cs : List Cand) (st : RunState) :
    st.seenIds ⊆ (cs.foldl (processCandidate k det fetch) st).seenIds := by
  induction cs generalizing st with
  | nil => exact Finset.Subset.refl _
  | cons c cs ih =>
    exact (processCandidate_seenIds_subset k det fetch st c).trans (ih _)

lemma foldl_seenDomains_subset (k : ℕ) (det : String → Option Details)
    (fetch : String → Option String) (cs : List Cand) (st : RunState) :
    st.seenDomains ⊆ (cs.foldl (processCandidate k det fetch) st).seenDomains := by
  induction cs generalizing st with
  | nil => exact Finset.Subset.refl _
  | cons c cs ih =>
    exact (processCandidate_seenDomains_subset k det fetch st c).trans (ih _)

lemma foldl_rows_append (k : ℕ) (det : String → Option Details)
    (fetch : String → Option String) (cs : List Cand) (st : RunState) :
    ∃ t, (cs.foldl (processCandidate k det fetch) st).rows = st.rows ++ t := by
  induction cs generalizing st with
  | nil => exact ⟨[], by simp⟩
  | cons c cs ih =>
    obtain ⟨t1, h1⟩ := processCandidate_rows_append k det fetch st c
    obtain ⟨t2, h2⟩ := ih (processCandidate k det fetch st c)
    exact ⟨t1 ++ t2, by rw [List.foldl_cons, h2, h1, List.append_assoc]⟩

/-- Once the cap is reached the rest of the loop is the identity (the
`break` of source line 219-220). -/
lemma foldl_processCandidate_of_full (k : ℕ) (det : String → Option Details)
    (fetch : String → Option String) (cs : List Cand) (st : RunState)
    (h : k ≤ st.rows.length) :
    cs.foldl (processCandidate k det fetch) st = st := by
  induction cs with
  | nil => rfl
  | cons c cs ih =>
    have hst : processCandidate k det fetch st c = st := by
      unfold processCandidate
      rw [if_pos h]
    rw [List.foldl_cons, hst, ih]

lemma processCandidate_rows_length_le (k : ℕ) (det : String → Option Details)
    (fetch : String → Option String) (st : RunState) (c : Cand)
    (h : st.rows.length ≤ k) :
    (processCandidate k det fetch st c).rows.length ≤ k := by
  rcases processCandidate_cases k det fetch st c with ⟨-, he⟩ |
    ⟨pid, -, -, -, hlt, -, he⟩ | ⟨pid, d, -, -, -, hlt, -, -, -, he⟩ |
    ⟨pid, d, -, -, -, hlt, -, -, he⟩ <;> rw [he]
  all_goals first
  | exact h
  | (unfold acceptCand
     simp only [markSeen]
     simp
     omega)

lemma foldl_rows_length_le (k : ℕ) (det : String → Option Details)
    (fetch : String → Option String) (cs : List Cand) (st : RunState)
    (h : st.rows.length ≤ k) :
    (cs.foldl (processCandidate k det fetch) st).rows.length ≤ k := by
  induction cs generalizing st with
  | nil => exact h
  | cons c cs ih =>
    exact ih _ (processCandidate_rows_length_le k det fetch st c h)

/-! ### Dedup invariant (claims C1, C9) -/

/-- Row facts tracked through the loop for the dedup invariant: the row
collides with neither loaded set, and is recorded in the current state. -/
def RowOk (S : Seen) (st : RunState) (r : Row) : Prop :=
  r.place_id ∉ S.ids ∧ (r.domain ≠ "" → r.domain ∉ S.domains) ∧
  r.place_id ∈ st.seenIds ∧ (r.domain ≠ "" → r.domain ∈ st.seenDomains)

lemma RowOk.mono {S : Seen} {st st' : RunState} {r : Row} (h : RowOk S st r)
    (h1 : st.seenIds ⊆ st'.seenIds) (h2 : st.seenDomains ⊆ st'.seenDomains) :
    RowOk S st' r :=
  ⟨h.1, h.2.1, h1 h.2.2.1, fun hd => h2 (h.2.2.2 hd)⟩

lemma processCandidate_rowOk (k : ℕ) (det : String → Option Details)
    (fetch : String → Option String) (S : Seen) (st : RunState) (c : Cand)
    (hids : S.ids ⊆ st.seenIds) (hdoms : S.domains ⊆ st.seenDomains)
    (hrows : ∀ r ∈ st.rows, RowOk S st r) :
    ∀ r ∈ (processCandidate k det fetch st c).rows,
      RowOk S (processCandidate k det fetch st c) r := by
  have hmono : ∀ r ∈ st.rows, RowOk S (processCandidate k det fetch st c) r :=
    fun r hr => (hrows r hr).mono (processCandidate_seenIds_subset k det fetch st c)
      (processCandidate_seenDomains_subset k det fetch st c)
  rcases processCandidate_cases k det fetch st c with ⟨-, he⟩ |
    ⟨pid, -, -, -, -, -, he⟩ | ⟨pid, d, -, -, -, -, -, -, -, he⟩ |
    ⟨pid, d, -, hpe, hps, -, -, hdom, he⟩
  · rw [he] at hmono ⊢; exact hmono
  · rw [he] at hmono ⊢; exact hmono
  · rw [he] at hmono ⊢; exact hmono
  · intro r hr
    rw [he] at hr ⊢
    rw [show (acceptCand fetch st c pid d).rows = st.rows ++ [acceptedRow fetch c pid d]
      from rfl] at hr
    rcases List.mem_append.mp hr with hr1 | hr2
    · rw [← he]; exact hmono r hr1
    · have hrw : r = acceptedRow fetch c pid d := by simpa using hr2
      subst hrw
      have hrp : (acceptedRow fetch c pid d).place_id = pid := rfl
      have hrd : (acceptedRow fetch c pid d).domain = candDomain d := rfl
      refine ⟨?_, ?_, ?_, ?_⟩
      · rw [hrp]; exact fun hmem => hps (hids hmem)
      · rw [hrd]
        intro hne hmem
        exact hdom ⟨hne, hdoms hmem⟩
      · rw [hrp]
        exact Finset.mem_insert_self _ _
      · rw [hrd]
        intro hne
        show candDomain d ∈ (if candDomain d ≠ "" then insert (candDomain d) st.seenDomains
          else st.seenDomains)
        rw [if_pos hne]
        exact Finset.mem_insert_self _ _

lemma foldl_rowOk (k : ℕ) (det : String → Option Details)
    (fetch : String → Option String) (S : Seen) (cs : List Cand) (st : RunState)
    (hids : S.ids ⊆ st.seenIds) (hdoms : S.domains ⊆ st.seenDomains)
    (hrows : ∀ r ∈ st.rows, RowOk S st r) :
    ∀ r ∈ (cs.foldl (processCandidate k det fetch) st).rows,
      RowOk S (cs.foldl (processCandidate k det fetch) st) r := by
  induction cs generalizing st with
  | nil => exact hrows
  | cons c cs ih =>
    exact ih _
      (hids.trans (processCandidate_seenIds_subset k det fetch st c))
      (hdoms.trans (processCandidate_seenDomains_subset k det fetch st c))
      (processCandidate_rowOk k det fetch S st c hids hdoms hrows)

lemma runMain_rowOk (k : ℕ) (hav : ℚ × ℚ → ℚ × ℚ → ℚ) (home : ℚ × ℚ)
    (S : Seen) (places : List Place) (det : String → Option Details)
    (fetch : String → Option String) :
    ∀ r ∈ (runMain k hav home S places det fetch).rows,
      RowOk S (runMain k hav home S places det fetch) r := by
  exact foldl_rowOk k det fetch S _ ⟨S.ids, S.domains, []⟩
    (Finset.Subset.refl _) (Finset.Subset.refl _) (by simp)

/-- C1.  Cross-run deduplication: no emitted row's place id lies in the
loaded id set and no emitted row's non-empty domain lies in the loaded
domain set; every emitted row is recorded in the final seen state, so a
second run started from the persisted state (with arbitrary collaborators)
can never re-emit a row with the same place id or the same non-empty
domain. -/
theorem c1_cross_run_dedup (k : ℕ) (hav : ℚ × ℚ → ℚ × ℚ → ℚ) (home : ℚ × ℚ)
    (S : Seen) (places : List Place) (det : String → Option Details)
    (fetch : String → Option String) (k2 : ℕ) (hav2 : ℚ × ℚ → ℚ × ℚ → ℚ)
    (home2 : ℚ × ℚ) (places2 : List Place) (det2 : String → Option Details)
    (fetch2 : String → Option String) :
    (∀ r ∈ (runMain k hav home S places det fetch).rows,
      r.place_id ∉ S.ids ∧ (r.domain ≠ "" → r.domain ∉ S.domains) ∧
      r.place_id ∈ (runMain k hav home S places det fetch).seenIds ∧
      (r.domain ≠ "" → r.domain ∈ (runMain k hav home S places det fetch).seenDomains)) ∧
    (∀ r1 ∈ (runMain k hav home S places det fetch).rows,
     ∀ r2 ∈ (runMain k2 hav2 home2
        (loadSeen (persisted (runMain k hav home S places det fetch)).1
                  (persisted (runMain k hav home S places det fetch)).2)
        places2 det2 fetch2).rows,
      r1.place_id ≠ r2.place_id ∧ (r1.domain ≠ "" → r1.domain ≠ r2.domain)) := by
  constructor
  · exact runMain_rowOk k hav home S places det fetch
  · intro r1 hr1 r2 hr2
    have h1 := runMain_rowOk k hav home S places det fetch r1 hr1
    rw [loadSeen_persisted] at hr2
    have h2 := runMain_rowOk k2 hav2 home2
      ⟨(runMain k hav home S places det fetch).seenIds,
       (runMain k hav home S places det fetch).seenDomains⟩ places2 det2 fetch2 r2 hr2
    constructor
    · intro he
      exact h2.1 (he ▸ h1.2.2.1)
    · intro hd he
      have hr2d : r2.domain ≠ "" := he ▸ hd
      exact h2.2.1 hr2d (he ▸ h1.2.2.2 hd)

/-! ### Shared concrete scenario used by witnesses and counterexamples -/

/-- Distance oracle of the examples: the candidate's latitude. -/
def exHav : ℚ × ℚ → ℚ × ℚ → ℚ := fun _ l => l.1

/-- Home coordinates of the examples. -/
def exHome : ℚ × ℚ := (0, 0)

/-- Example candidates at distances 9990, 9991 and 9992 (chosen beyond
the 9000 blank threshold so the emitted distance cell is `none` and row
literals need no rounding arithmetic). -/
def exP1 : Place := ⟨some "p1", some 9990, some 1, "Beta"⟩

/-- Second example candidate. -/
def exP2 : Place := ⟨some "p2", some 9991, some 2, "alpha"⟩

/-- Third example candidate. -/
def exP3 : Place := ⟨some "p3", some 9992, some 3, "Gamma"⟩

/-- Detail collaborator answering with no website. -/
def exDet0 : String → Option Details := fun p =>
  if p = "p1" then some ⟨"A Ltd", "addr1", "111", "", "maps1"⟩
  else if p = "p2" then some ⟨"B Ltd", "addr2", "222", "", "maps2"⟩
  else if p = "p3" then some ⟨"C Ltd", "addr3", "333", "", "maps3"⟩
  else none

/-- Detail collaborator where the two closest candidates share a domain. -/
def exDetD : String → Option Details := fun p =>
  if p = "p1" then some ⟨"A Ltd", "addr1", "111", "http://d.com", "maps1"⟩
  else if p = "p2" then some ⟨"B Ltd", "addr2", "222", "https://d.com/x", "maps2"⟩
  else if p = "p3" then some ⟨"C Ltd", "addr3", "333", "http://e.com", "maps3"⟩
  else none

/-- Website fetcher of the examples: every fetch fails. -/
def exFetch0 : String → Option String := fun _ => none

/-- Row emitted for `exP1` under `exDet0`. -/
def exRow1 : Row := ⟨"A Ltd", none, "addr1", "111", "", "", "", "maps1", "p1", ""⟩

/-- Row emitted for `exP2` under `exDet0`. -/
def exRow2 : Row := ⟨"B Ltd", none, "addr2", "222", "", "", "", "maps2", "p2", ""⟩

theorem c1_cross_run_dedup_witness :
    ("p1" : String) ≠ "p2" ∧ (("" : String) ≠ "" → ("" : String) ≠ "") := by
  have hl := loadSeen_persisted (runMain 1 exHav exHome ⟨∅, ∅⟩ [exP1, exP2] exDet0 exFetch0)
  exact (c1_cross_run_dedup 1 exHav exHome ⟨∅, ∅⟩ [exP1, exP2] exDet0 exFetch0
      1 exHav exHome [exP1, exP2] exDet0 exFetch0).2
    exRow1 (by decide) exRow2 (by rw [hl]; decide)

lemma runMain_seenIds_superset (k : ℕ) (hav : ℚ × ℚ → ℚ × ℚ → ℚ) (home : ℚ × ℚ)
    (S : Seen) (places : List Place) (det : String → Option Details)
    (fetch : String → Option String) :
    S.ids ⊆ (runMain k hav home S places det fetch).seenIds :=
  foldl_seenIds_subset k det fetch _ ⟨S.ids, S.domains, []⟩

lemma runMain_seenDomains_superset (k : ℕ) (hav : ℚ × ℚ → ℚ × ℚ → ℚ) (home : ℚ × ℚ)
    (S : Seen) (places : List Place) (det : String → Option Details)
    (fetch : String → Option String) :
    S.domains ⊆ (runMain k hav home S places det fetch).seenDomains :=
  foldl_seenDomains_subset k det fetch _ ⟨S.ids, S.domains, []⟩

/-- C9.  Ledger monotonicity and normal form: the persisted id and domain
arrays are duplicate-free, sorted ascending, and every entry of the
loaded arrays is still present in the corresponding persisted array. -/
theorem c9_ledger_monotone_sorted (k : ℕ) (hav : ℚ × ℚ → ℚ × ℚ → ℚ)
    (home : ℚ × ℚ) (ids domains : List String) (places : List Place)
    (det : String → Option Details) (fetch : String → Option String) :
    List.Sorted (· < ·)
      (persisted (runMain k hav home (loadSeen ids domains) places det fetch)).1 ∧
    (persisted (runMain k hav home (loadSeen ids domains) places det fetch)).1.Nodup ∧
    List.Sorted (· < ·)
      (persisted (runMain k hav home (loadSeen ids domains) places det fetch)).2 ∧
    (persisted (runMain k hav home (loadSeen ids domains) places det fetch)).2.Nodup ∧
    (∀ x ∈ ids,
      x ∈ (persisted (runMain k hav home (loadSeen ids domains) places det fetch)).1) ∧
    (∀ x ∈ domains,
      x ∈ (persisted (runMain k hav home (loadSeen ids domains) places det fetch)).2) := by
  refine ⟨Finset.sort_sorted_lt _, Finset.sort_nodup _ _, Finset.sort_sorted_lt _,
    Finset.sort_nodup _ _, ?_, ?_⟩
  · intro x hx
    unfold persisted
    rw [Finset.mem_sort]
    exact runMain_seenIds_superset k hav home (loadSeen ids domains) places det fetch
      (by simpa [loadSeen] using hx)
  · intro x hx
    unfold persisted
    rw [Finset.mem_sort]
    exact runMain_seenDomains_superset k hav home (loadSeen ids domains) places det fetch
      (by simpa [loadSeen] using hx)

theorem c9_ledger_monotone_sorted_witness :
    ("z" : String) ∈
      (persisted (runMain 1 exHav exHome (loadSeen ["z"] []) [exP1] exDet0 exFetch0)).1 :=
  (c9_ledger_monotone_sorted 1 exHav exHome ["z"] [] [exP1] exDet0 exFetch0).2.2.2.2.1
    "z" (by decide)

/-! ### Scanner characterization (claims C8, C10) -/

lemma scanPaths_checked (fetch : String → Option String) (base : String)
    (ps : List String) :
    (scanPaths fetch base ps).2 =
      (ps.map (fun p => base ++ p)).filter (fun u => (fetch u).isSome) := by
  induction ps with
  | nil => rfl
  | cons p ps ih =>
    unfold scanPaths
    cases hf : fetch (base ++ p) with
    | none => simpa [hf] using ih
    | some html => simpa [hf] using ih

lemma scanPaths_found (fetch : String → Option String) (base : String)
    (ps : List String) (e : String) :
    e ∈ (scanPaths fetch base ps).1 ↔
      ∃ p ∈ ps, ∃ h, fetch (base ++ p) = some h ∧ e ∈ extractMatches h := by
  induction ps with
  | nil => simp [scanPaths]
  | cons p ps ih =>
    unfold scanPaths
    cases hf : fetch (base ++ p) with
    | none =>
      rw [ih]
      constructor
      · rintro ⟨q, hq, h, hh, he⟩
        exact ⟨q, List.mem_cons_of_mem _ hq, h, hh, he⟩
      · rintro ⟨q, hq, h, hh, he⟩
        rcases List.mem_cons.mp hq with rfl | hq2
        · rw [hf] at hh; exact absurd hh (by simp)
        · exact ⟨q, hq2, h, hh, he⟩
    | some html =>
      simp only [Finset.mem_union]
      rw [ih]
      constructor
      · rintro (he | ⟨q, hq, h, hh, he⟩)
        · exact ⟨p, List.mem_cons_self _ _, html, hf, he⟩
        · exact ⟨q, List.mem_cons_of_mem _ hq, h, hh, he⟩
      · rintro ⟨q, hq, h, hh, he⟩
        rcases List.mem_cons.mp hq with rfl | hq2
        · rw [hf] at hh
          obtain rfl : html = h := by simpa using hh
          exact Or.inl he
        · exact Or.inr ⟨q, hq2, h, hh, he⟩

/-- C8.  Scan resilience: for every origin and fetcher, the returned
checked-url list is exactly the successfully fetched urls (a failing path
never aborts the remaining paths), and an address is in the finding set
exactly when it is matched in some successfully fetched page. -/
theorem c8_scan_resilience (fetch : String → Option String) (base : String) :
    (extract_generic_emails_from_site fetch base).2 =
      (CANDIDATE_PATHS.map (fun p => base ++ p)).filter (fun u => (fetch u).isSome) ∧
    ∀ e, e ∈ (extract_generic_emails_from_site fetch base).1 ↔
      ∃ p ∈ CANDIDATE_PATHS, ∃ h, fetch (base ++ p) = some h ∧ e ∈ extractMatches h := by
  constructor
  · exact scanPaths_checked fetch base CANDIDATE_PATHS
  · intro e
    unfold extract_generic_emails_from_site
    rw [Finset.mem_sort]
    exact scanPaths_found fetch base CANDIDATE_PATHS e

/-- Failing website fetcher except on the `/careers` page of one origin. -/
def exFetch1 : String → Option String := fun u =>
  if u = "https://x.com/careers" then some ("write to careers@x.com today") else none

theorem c8_scan_resilience_witness :
    ("careers@x.com" : String) ∈
      (extract_generic_emails_from_site exFetch1 ("https://x.com")).1 ∧
    (extract_generic_emails_from_site exFetch1 ("https://x.com")).2 =
      ["https://x.com/careers"] := by
  obtain ⟨h2, h1⟩ := c8_scan_resilience exFetch1 ("https://x.com")
  refine ⟨(h1 _).mpr ⟨"/careers", by decide, "write to careers@x.com today",
    by decide, by decide⟩, ?_⟩
  rw [h2]
  decide

lemma extract_fst_sorted (fetch : String → Option String) (base : String) :
    List.Sorted (· < ·) (extract_generic_emails_from_site fetch base).1 :=
  Finset.sort_sorted_lt _

lemma scanResult_fst_sorted (fetch : String → Option String) (d : Details) :
    List.Sorted (· < ·) (scanResult fetch d).1 := by
  unfold scanResult
  split
  · exact extract_fst_sorted _ _
  · simp

lemma foldl_rows_mem (k : ℕ) (det : String → Option Details)
    (fetch : String → Option String) (cs : List Cand) (st : RunState) :
    ∀ r ∈ (cs.foldl (processCandidate k det fetch) st).rows,
      r ∈ st.rows ∨ ∃ c pid d, det pid = some d ∧ r = acceptedRow fetch c pid d := by
  induction cs generalizing st with
  | nil => exact fun r hr => Or.inl hr
  | cons c cs ih =>
    intro r hr
    rcases ih (processCandidate k det fetch st c) r hr with hr1 | hr2
    · rcases processCandidate_cases k det fetch st c with ⟨-, he⟩ |
        ⟨pid, -, -, -, -, -, he⟩ | ⟨pid, d, -, -, -, -, -, -, -, he⟩ |
        ⟨pid, d, -, -, -, -, hd, -, he⟩
      · rw [he] at hr1; exact Or.inl hr1
      · rw [he] at hr1; exact Or.inl hr1
      · rw [he] at hr1; exact Or.inl hr1
      · rw [he] at hr1
        rcases List.mem_append.mp hr1 with hr3 | hr4
        · exact Or.inl hr3
        · exact Or.inr ⟨c, pid, d, hd, by simpa using hr4⟩
    · exact Or.inr hr2

/-- C10.  Checked-pages cap and e-mail normal form: 17 paths are probed,
every emitted row's checked-pages cell joins at most the first 6 checked
urls, and its e-mail cell joins a strictly sorted (hence duplicate-free)
address list. -/
theorem c10_row_caps (k : ℕ) (hav : ℚ × ℚ → ℚ × ℚ → ℚ) (home : ℚ × ℚ)
    (S : Seen) (places : List Place) (det : String → Option Details)
    (fetch : String → Option String) :
    CANDIDATE_PATHS.length = 17 ∧
    ∀ r ∈ (runMain k hav home S places det fetch).rows,
      ∃ c pid d, det pid = some d ∧ r = acceptedRow fetch c pid d ∧
        r.emails = String.intercalate (" | ") (scanResult fetch d).1 ∧
        List.Sorted (· < ·) (scanResult fetch d).1 ∧
        (scanResult fetch d).1.Nodup ∧
        r.pages_checked = String.intercalate (" | ") ((scanResult fetch d).2.take 6) ∧
        ((scanResult fetch d).2.take 6).length ≤ 6 := by
  refine ⟨rfl, ?_⟩
  intro r hr
  rcases foldl_rows_mem k det fetch _ ⟨S.ids, S.domains, []⟩ r hr with h0 | ⟨c, pid, d, hd, hrw⟩
  · simp at h0
  · subst hrw
    exact ⟨c, pid, d, hd, rfl, rfl, scanResult_fst_sorted fetch d,
      (scanResult_fst_sorted fetch d).nodup, rfl, List.length_take_le _ _⟩

theorem c10_row_caps_witness :
    CANDIDATE_PATHS.length = 17 ∧
    ∃ c pid d, exDet0 pid = some d ∧ exRow1 = acceptedRow exFetch0 c pid d ∧
      exRow1.emails = String.intercalate (" | ") (scanResult exFetch0 d).1 ∧
      List.Sorted (· < ·) (scanResult exFetch0 d).1 ∧
      (scanResult exFetch0 d).1.Nodup ∧
      exRow1.pages_checked =
        String.intercalate (" | ") ((scanResult exFetch0 d).2.take 6) ∧
      ((scanResult exFetch0 d).2.take 6).length ≤ 6 :=
  ⟨(c10_row_caps 1 exHav exHome ⟨∅, ∅⟩ [exP1] exDet0 exFetch0).1,
   (c10_row_caps 1 exHav exHome ⟨∅, ∅⟩ [exP1] exDet0 exFetch0).2 exRow1 (by decide)⟩

/-! ### Claim C4: the search-protocol trace -/

/-- C4 (amended).  The search client issues exactly one page request — in
particular at most 3 — with no page token; it never issues a continuation
request at all (so, vacuously, never without a preceding wait), ignoring
any continuation token the service returns; the returned candidate list
is the response's places array. -/
theorem c4_single_search_request (resp : SearchResponse) :
    placesSearchTrace resp = [SearchAction.postSearch none] ∧
    (placesSearchTrace resp).length ≤ 3 ∧
    (placesSearchTrace resp).filter (fun a => isContinuationReq a) = [] ∧
    places_search_text resp = resp.places :=
  ⟨rfl, by simp [placesSearchTrace], rfl, rfl⟩

/-- C4 refutation at a concrete input: the service returns the
continuation token `"tok2"`, but the client's trace is the single
tokenless request — it never waits and never issues the follow-up page
request the claim requires. -/
theorem c4_counterexample :
    (SearchResponse.mk [] (some "tok2")).nextPageToken = some "tok2" ∧
    ¬ (∃ pre post : List SearchAction,
        placesSearchTrace (SearchResponse.mk [] (some "tok2")) =
          pre ++ [SearchAction.wait 2000] ++ post ∧
        SearchAction.postSearch (some "tok2") ∈ post) := by
  refine ⟨rfl, ?_⟩
  rintro ⟨pre, post, heq, -⟩
  have hlen := congrArg List.length heq
  simp [placesSearchTrace] at hlen
  have hpre : pre = [] := List.length_eq_zero.mp (by omega)
  subst hpre
  simp [placesSearchTrace] at heq

/-! ### Claim C6: candidate ordering -/

instance : IsTotal Cand fun x y => x.1 ≤ y.1 :=
  ⟨fun a b => le_total a.1 b.1⟩

instance : IsTrans Cand fun x y => x.1 ≤ y.1 :=
  ⟨fun _ _ _ h1 h2 => le_trans h1 h2⟩

lemma orderedInsert_filter_dist (a : Cand) (l : List Cand) (q : ℚ) :
    (l.orderedInsert (fun x y => x.1 ≤ y.1) a).filter (fun x => decide (x.1 = q)) =
      if a.1 = q then a :: l.filter (fun x => decide (x.1 = q))
      else l.filter (fun x => decide (x.1 = q)) := by
  induction l with
  | nil =>
    simp only [List.orderedInsert_nil, List.filter]
    split_ifs with h1 <;> simp_all
  | cons b l ih =>
    simp only [List.orderedInsert]
    by_cases hab : a.1 ≤ b.1
    · rw [if_pos hab]
      by_cases ha : a.1 = q
      · simp [List.filter_cons, ha]
      · simp [List.filter_cons, ha]
    · rw [if_neg hab]
      have hba : b.1 < a.1 := lt_of_not_le hab
      rw [List.filter_cons, ih]
      by_cases ha : a.1 = q
      · have hbq : ¬ b.1 = q := ha ▸ ne_of_lt hba
        simp [ha, hbq]
      · by_cases hb : b.1 = q <;> simp [ha, hb]

lemma sortByDist_filter_dist (l : List Cand) (q : ℚ) :
    (sortByDist l).filter (fun x => decide (x.1 = q)) =
      l.filter (fun x => decide (x.1 = q)) := by
  unfold sortByDist
  induction l with
  | nil => rfl
  | cons a l ih =>
    simp only [List.insertionSort]
    rw [orderedInsert_filter_dist, List.filter_cons]
    by_cases ha : a.1 = q <;> simp [ha, ih]

/-- C6 (amended).  The pipeline processes candidates in an order sorted
ascending by distance; the sort is stable, so candidates with equal
distance keep the order in which the search collaborator returned them —
the display name plays no role. -/
theorem c6_sorted_by_distance_stable (l : List Cand) :
    List.Sorted (fun x y : Cand => x.1 ≤ y.1) (sortByDist l) ∧
    (sortByDist l).Perm l ∧
    ∀ q : ℚ, (sortByDist l).filter (fun x => decide (x.1 = q)) =
      l.filter (fun x => decide (x.1 = q)) :=
  ⟨List.sorted_insertionSort _ l, List.perm_insertionSort _ l,
   fun q => sortByDist_filter_dist l q⟩

/-- Specification-side comparison: ascending distance with ties broken by
case-insensitive display name (compared as character lists). -/
def specTieOrder (x y : Cand) : Prop :=
  x.1 < y.1 ∨ (x.1 = y.1 ∧ (lowerStr x.2.2.name).data ≤ (lowerStr y.2.2.name).data)

instance (x y : Cand) : Decidable (specTieOrder x y) :=
  decidable_of_iff
    (x.1 < y.1 ∨ (x.1 = y.1 ∧ (lowerStr x.2.2.name).data ≤ (lowerStr y.2.2.name).data))
    Iff.rfl

/-- Equal-distance example candidates whose names are out of
case-insensitive alphabetical order. -/
def exT1 : Place := ⟨some "p1", some 1, some 1, "Beta"⟩

/-- Second equal-distance example candidate. -/
def exT2 : Place := ⟨some "p2", some 1, some 2, "alpha"⟩

/-- Distance oracle making every candidate equidistant. -/
def exHavTie : ℚ × ℚ → ℚ × ℚ → ℚ := fun _ _ => 1

/-- C6 refutation at a concrete input: two equidistant candidates named
`"Beta"` then `"alpha"` are processed in returned order, not in
case-insensitive name order, so the processing order violates the
claimed tie-break. -/
theorem c6_counterexample :
    ¬ List.Pairwise specTieOrder
        (sortByDist (enrichPlaces exHavTie exHome [exT1, exT2])) := by decide

/-! ### Claim C7: missing coordinates, the 9999 sentinel and the blank
distance cell -/

lemma haversine_km_antipodal : haversine_km 0 0 0 180 = 6371 * Real.pi := by
  unfold haversine_km radiansR
  have e1 : (0 : ℝ) * Real.pi / 180 = 0 := by ring
  have e2 : ((0 : ℝ) - 0) * Real.pi / 180 = 0 := by ring
  have e3 : ((180 : ℝ) - 0) * Real.pi / 180 = Real.pi := by ring
  rw [e1, e2, e3]
  simp only [zero_div, Real.sin_zero, Real.cos_zero, one_mul, one_pow,
    Real.sin_pi_div_two, zero_add]
  rw [show (0 : ℝ) ^ 2 + 1 = 1 by ring]
  rw [Real.sqrt_one, Real.arcsin_one]
  ring

lemma haversine_km_gt_9000 : (9000 : ℝ) < haversine_km 0 0 0 180 := by
  rw [haversine_km_antipodal]
  nlinarith [Real.pi_gt_three]

/-- C7 (amended).  A candidate with a missing coordinate is given the
sentinel distance 9999 (so, the processing order being sorted ascending
by distance, it comes after every candidate whose distance is below
9999 — but not necessarily after one whose haversine distance reaches the
sentinel); the emitted distance cell is blank exactly when the sort
distance is at least 9000 — in particular always blank for missing
coordinates — and is the value rounded to one decimal otherwise. -/
theorem c7_sentinel_distance (hav : ℚ × ℚ → ℚ × ℚ → ℚ) (home : ℚ × ℚ)
    (p : Place) (fetch : String → Option String) (c : Cand) (pid : String)
    (d : Details) :
    ((p.lat = none ∨ p.lng = none) → candDist hav home p = 9999) ∧
    ((acceptedRow fetch c pid d).distance_km = none ↔ ¬ c.1 < 9000) ∧
    (c.1 < 9000 → (acceptedRow fetch c pid d).distance_km = some (round1 c.1)) ∧
    ((p.lat = none ∨ p.lng = none) →
      (acceptedRow fetch (candDist hav home p, p.id, p) pid d).distance_km = none) ∧
    (∀ l : List Cand, List.Sorted (fun x y : Cand => x.1 ≤ y.1) (sortByDist l)) := by
  have hdist : (p.lat = none ∨ p.lng = none) → candDist hav home p = 9999 := by
    intro h
    unfold candDist
    rcases h with h | h
    · rw [h]
    · rw [h]
      cases p.lat <;> rfl
  have hcell : (acceptedRow fetch c pid d).distance_km =
      (if c.1 < 9000 then some (round1 c.1) else none) := rfl
  refine ⟨hdist, ?_, ?_, ?_, fun l => List.sorted_insertionSort _ l⟩
  · rw [hcell]
    constructor
    · intro hnone hlt
      rw [if_pos hlt] at hnone
      exact absurd hnone (by simp)
    · intro hge
      rw [if_neg hge]
  · intro hlt
    rw [hcell, if_pos hlt]
  · intro h
    have h9 := hdist h
    show (if (candDist hav home p, p.id, p).1 < 9000 then
        some (round1 (candDist hav home p, p.id, p).1) else none) = none
    dsimp only
    rw [h9]
    norm_num

/-- Missing-coordinate example candidate. -/
def exC7M : Place := ⟨some "m", none, none, "M"⟩

/-- Far-away example candidate at real coordinates (0, 180). -/
def exC7F : Place := ⟨some "f", some 0, some 180, "F"⟩

/-- Example detail record with no website. -/
def exC7D : Details := ⟨"F Ltd", "addr", "", "", ""⟩

/-- Distance oracle standing for the haversine value at the example
coordinates: `haversine_km 0 0 0 180 = 6371 * pi = 20015.08...` km, a
rational stand-in of 20015 is used. -/
def exHav20015 : ℚ × ℚ → ℚ × ℚ → ℚ := fun _ _ => 20015

theorem c7_sentinel_distance_witness :
    candDist exHav exHome exC7M = 9999 ∧
    (acceptedRow exFetch0 (candDist exHav exHome exC7M, exC7M.id, exC7M) "m"
      exC7D).distance_km = none := by
  have h := c7_sentinel_distance exHav exHome exC7M exFetch0
    (candDist exHav exHome exC7M, exC7M.id, exC7M) "m" exC7D
  exact ⟨h.1 (Or.inl rfl), h.2.2.2.1 (Or.inl rfl)⟩

/-- C7 refutation at a concrete input: the source's haversine formula
exceeds 9000 km at the real coordinates (0,0)-(0,180), and for a
candidate at such a distance — coordinates present — the emitted distance
cell is blank, and the missing-coordinate candidate (sentinel 9999) sorts
before it rather than last. -/
theorem c7_counterexample :
    haversine_km 0 0 0 180 = 6371 * Real.pi ∧
    (9000 : ℝ) < haversine_km 0 0 0 180 ∧
    exC7F.lat ≠ none ∧ exC7F.lng ≠ none ∧
    (acceptedRow exFetch0 (candDist exHav20015 (0, 0) exC7F, exC7F.id, exC7F) "f"
      exC7D).distance_km = none ∧
    sortByDist (enrichPlaces exHav20015 (0, 0) [exC7F, exC7M]) =
      [(9999, some "m", exC7M), (20015, some "f", exC7F)] := by
  refine ⟨haversine_km_antipodal, haversine_km_gt_9000, ?_, ?_, ?_, ?_⟩
  · decide
  · decide
  · decide
  · decide

/-! ### Claim C5: re-running with the persisted state -/

lemma foldl_rows_length_mono (k : ℕ) (det : String → Option Details)
    (fetch : String → Option String) (cs : List Cand) (st : RunState) :
    st.rows.length ≤ (cs.foldl (processCandidate k det fetch) st).rows.length := by
  obtain ⟨t, ht⟩ := foldl_rows_append k det fetch cs st
  rw [ht]
  simp

lemma processCandidate_rows_length_mono (k : ℕ) (det : String → Option Details)
    (fetch : String → Option String) (st : RunState) (c : Cand) :
    st.rows.length ≤ (processCandidate k det fetch st c).rows.length := by
  obtain ⟨t, ht⟩ := processCandidate_rows_append k det fetch st c
  rw [ht]
  simp

/-- When a run ends strictly below the cap, the loop has genuinely
processed every candidate, so every non-falsy place id has been marked
seen. -/
lemma foldl_pids_seen (k : ℕ) (det : String → Option Details)
    (fetch : String → Option String) (cs : List Cand) (st : RunState)
    (hlen : (cs.foldl (processCandidate k det fetch) st).rows.length < k) :
    ∀ c ∈ cs, ∀ pid, c.2.1 = some pid → pid ≠ "" →
      pid ∈ (cs.foldl (processCandidate k det fetch) st).seenIds := by
  induction cs generalizing st with
  | nil => intro c hc; exact absurd hc (List.not_mem_nil c)
  | cons c cs ih =>
    intro c0 hc0 pid hpid hpe
    rw [List.foldl_cons] at hlen ⊢
    rcases List.mem_cons.mp hc0 with rfl | hmem
    · have hstlen : st.rows.length < k :=
        lt_of_le_of_lt
          ((processCandidate_rows_length_mono k det fetch st c0).trans
            (foldl_rows_length_mono k det fetch cs _)) hlen
      have hsub := foldl_seenIds_subset k det fetch cs (processCandidate k det fetch st c0)
      rcases processCandidate_cases k det fetch st c0 with ⟨hr, he⟩ |
        ⟨pid2, hc2, -, -, -, -, he⟩ | ⟨pid2, d, hc2, -, -, -, -, -, -, he⟩ |
        ⟨pid2, d, hc2, -, -, -, -, -, he⟩
      · rcases hr with hr | hr | ⟨pid3, hc3, hr⟩
        · exact absurd hr (Nat.not_le.mpr hstlen)
        · rw [hpid] at hr; exact absurd hr (by simp)
        · rw [hpid] at hc3
          obtain rfl : pid = pid3 := by simpa using hc3
          rcases hr with hr | hr
          · exact absurd hr hpe
          · exact hsub (by rw [he]; exact hr)
      · rw [hpid] at hc2
        obtain rfl : pid = pid2 := by simpa using hc2
        exact hsub (by rw [he]; exact Finset.mem_insert_self _ _)
      · rw [hpid] at hc2
        obtain rfl : pid = pid2 := by simpa using hc2
        exact hsub (by rw [he]; exact Finset.mem_insert_self _ _)
      · rw [hpid] at hc2
        obtain rfl : pid = pid2 := by simpa using hc2
        exact hsub (by rw [he]; exact Finset.mem_insert_self _ _)
    · exact ih (processCandidate k det fetch st c) hlen c0 hmem pid hpid hpe

/-- A run whose loaded id set already covers every candidate id leaves
the state untouched. -/
lemma foldl_all_seen (k : ℕ) (det : String → Option Details)
    (fetch : String → Option String) (cs : List Cand) (st : RunState)
    (h : ∀ c ∈ cs, ∀ pid, c.2.1 = some pid → pid ≠ "" → pid ∈ st.seenIds) :
    cs.foldl (processCandidate k det fetch) st = st := by
  induction cs with
  | nil => rfl
  | cons c cs ih =>
    have hstep : processCandidate k det fetch st c = st := by
      by_cases hk : k ≤ st.rows.length
      · unfold processCandidate
        rw [if_pos hk]
      cases hc : c.2.1 with
      | none =>
        unfold processCandidate
        rw [if_neg hk, hc]
      | some pid =>
        have hred := processCandidate_some k det fetch st c pid hc (Nat.lt_of_not_le hk)
        by_cases hpe : pid = ""
        · rw [hred, if_pos hpe]
        · rw [hred, if_neg hpe, if_pos (h c (List.mem_cons_self c cs) pid hc hpe)]
    rw [List.foldl_cons, hstep]
    exact ih fun c0 hc0 => h c0 (List.mem_cons_of_mem c hc0)

/-- C5 (amended).  When the first run accepts strictly fewer rows than
its cap, a second run from the persisted state with identical upstream
responses produces zero new rows. -/
theorem c5_rerun_zero_rows (k : ℕ) (hav : ℚ × ℚ → ℚ × ℚ → ℚ) (home : ℚ × ℚ)
    (S : Seen) (places : List Place) (det : String → Option Details)
    (fetch : String → Option String)
    (h : (runMain k hav home S places det fetch).rows.length < k) :
    (runMain k hav home
      (loadSeen (persisted (runMain k hav home S places det fetch)).1
                (persisted (runMain k hav home S places det fetch)).2)
      places det fetch).rows = [] := by
  rw [loadSeen_persisted]
  show ((sortByDist (enrichPlaces hav home places)).foldl (processCandidate k det fetch)
    ⟨(runMain k hav home S places det fetch).seenIds,
     (runMain k hav home S places det fetch).seenDomains, []⟩).rows = []
  rw [foldl_all_seen]
  intro c hc pid hpid hpe
  exact foldl_pids_seen k det fetch _ _ h c hc pid hpid hpe

theorem c5_rerun_zero_rows_witness :
    (runMain 2 exHav exHome
      (loadSeen (persisted (runMain 2 exHav exHome ⟨∅, ∅⟩ [exP1] exDet0 exFetch0)).1
                (persisted (runMain 2 exHav exHome ⟨∅, ∅⟩ [exP1] exDet0 exFetch0)).2)
      [exP1] exDet0 exFetch0).rows = [] :=
  c5_rerun_zero_rows 2 exHav exHome ⟨∅, ∅⟩ [exP1] exDet0 exFetch0 (by decide)

/-- C5 refutation at a concrete input: with cap 1 and two fresh
candidates, the first run emits the closest and stops at the cap; the
second run, from the persisted state with identical responses, emits the
second candidate — one new row, not zero. -/
theorem c5_counterexample :
    (runMain 1 exHav exHome ⟨∅, ∅⟩ [exP1, exP2] exDet0 exFetch0).rows.map
        (fun r => r.place_id) = ["p1"] ∧
    (runMain 1 exHav exHome
      (loadSeen (persisted (runMain 1 exHav exHome ⟨∅, ∅⟩ [exP1, exP2] exDet0 exFetch0)).1
                (persisted (runMain 1 exHav exHome ⟨∅, ∅⟩ [exP1, exP2] exDet0 exFetch0)).2)
      [exP1, exP2] exDet0 exFetch0).rows.map (fun r => r.place_id) = ["p2"] := by
  constructor
  · decide
  · rw [loadSeen_persisted]
    decide

/-! ### Claim C2: daily cap and selection order -/

/-- Place id of a candidate tuple, with the falsy default. -/
def pidStr (c : Cand) : String := c.2.1.getD ""

/-- Domain a candidate would be assigned after enrichment, empty when the
id is falsy or enrichment fails. -/
def domFor (det : String → Option Details) (c : Cand) : String :=
  match c.2.1 with
  | none => ""
  | some pid =>
    match det pid with
    | none => ""
    | some d => candDomain d

/-- Static eligibility of a candidate with respect to the loaded seen
state: truthy id not already seen, enrichment succeeds, and the domain is
empty or not already seen. -/
def eligibleB (det : String → Option Details) (S : Seen) (c : Cand) : Bool :=
  match c.2.1 with
  | none => false
  | some pid =>
    if pid = "" then false
    else if pid ∈ S.ids then false
    else
      match det pid with
      | none => false
      | some d =>
        if candDomain d ≠ "" ∧ candDomain d ∈ S.domains then false else true

lemma pidStr_eq {c : Cand} {pid : String} (h : c.2.1 = some pid) : pidStr c = pid := by
  unfold pidStr
  rw [h]
  rfl

lemma domFor_eq {det : String → Option Details} {c : Cand} {pid : String} {d : Details}
    (h1 : c.2.1 = some pid) (h2 : det pid = some d) : domFor det c = candDomain d := by
  unfold domFor
  rw [h1]
  dsimp only
  rw [h2]

lemma eligibleB_iff (det : String → Option Details) (S : Seen) (c : Cand) :
    eligibleB det S c = true ↔
      ∃ pid d, c.2.1 = some pid ∧ pid ≠ "" ∧ pid ∉ S.ids ∧ det pid = some d ∧
        ¬(candDomain d ≠ "" ∧ candDomain d ∈ S.domains) := by
  unfold eligibleB
  cases hc : c.2.1 with
  | none => simp
  | some pid =>
    dsimp only
    by_cases hpe : pid = ""
    · simp [hpe]
    rw [if_neg hpe]
    by_cases hpS : pid ∈ S.ids
    · simp [hpS, hpe]
    rw [if_neg hpS]
    cases hd : det pid with
    | none => simp [hpe, hpS, hd]
    | some d =>
      dsimp only
      by_cases hdom : candDomain d ≠ "" ∧ candDomain d ∈ S.domains
      · rw [if_pos hdom]
        constructor
        · intro hfalse
          exact (Bool.false_ne_true hfalse).elim
        · rintro ⟨pid2, d2, hpid2, -, -, hd2, hno⟩
          obtain rfl : pid = pid2 := by simpa using hpid2
          obtain rfl : d = d2 := by
            rw [hd] at hd2
            simpa using hd2
          exact absurd hdom hno
      · rw [if_neg hdom]
        constructor
        · intro _
          exact ⟨pid, d, rfl, hpe, hpS, hd, hdom⟩
        · intro _
          rfl

/-- Core characterization of the selection loop: starting below the cap
from a state covering the loaded seen sets, with the statically eligible
candidates live in the current state and pairwise distinct in place id
and (non-empty) domain, the loop emits exactly the first
`cap - rows-so-far` eligible candidates, in order. -/
lemma c2_core (k : ℕ) (det : String → Option Details) (fetch : String → Option String)
    (S : Seen) :
    ∀ (cs : List Cand) (st : RunState),
    S.ids ⊆ st.seenIds → S.domains ⊆ st.seenDomains →
    (∀ c ∈ cs, eligibleB det S c = true → pidStr c ∉ st.seenIds) →
    (∀ c ∈ cs, eligibleB det S c = true → domFor det c ≠ "" → domFor det c ∉ st.seenDomains) →
    (cs.filter (eligibleB det S)).Pairwise (fun a b => pidStr a ≠ pidStr b) →
    (cs.filter (eligibleB det S)).Pairwise
      (fun a b => domFor det a = "" ∨ domFor det a ≠ domFor det b) →
    ((cs.foldl (processCandidate k det fetch) st).rows).map (fun r => r.place_id) =
      st.rows.map (fun r => r.place_id) ++
      ((cs.filter (eligibleB det S)).take (k - st.rows.length)).map pidStr := by
  intro cs
  induction cs with
  | nil =>
    intro st _ _ _ _ _ _
    simp
  | cons c cs ih =>
    intro st hIds hDoms hLiveI hLiveD hPid hDom
    by_cases hk : k ≤ st.rows.length
    · rw [foldl_processCandidate_of_full k det fetch (c :: cs) st hk,
        Nat.sub_eq_zero_of_le hk, List.take_zero]
      simp
    have hk2 : st.rows.length < k := Nat.lt_of_not_le hk
    cases he : eligibleB det S c with
    | true =>
      obtain ⟨pid, d, hpid, hpe, hpS, hd, hdomS⟩ := (eligibleB_iff det S c).mp he
      have hcmem : c ∈ c :: cs := List.mem_cons_self c cs
      have hpidstr : pidStr c = pid := pidStr_eq hpid
      have hdomfor : domFor det c = candDomain d := domFor_eq hpid hd
      have hnotseen : pid ∉ st.seenIds := hpidstr ▸ hLiveI c hcmem he
      have hdomok : ¬(candDomain d ≠ "" ∧ candDomain d ∈ st.seenDomains) := by
        rintro ⟨hne, hmem⟩
        exact hLiveD c hcmem he (hdomfor ▸ hne) (hdomfor ▸ hmem)
      have hstep : processCandidate k det fetch st c = acceptCand fetch st c pid d := by
        rw [processCandidate_some k det fetch st c pid hpid hk2, if_neg hpe,
          if_neg hnotseen, hd]
        dsimp only
        rw [if_neg hdomok]
      have hfil : (c :: cs).filter (eligibleB det S) = c :: cs.filter (eligibleB det S) := by
        rw [List.filter_cons, if_pos he]
      rw [hfil] at hPid hDom
      have hPidc := (List.pairwise_cons.mp hPid).1
      have hDomc := (List.pairwise_cons.mp hDom).1
      have hDsub : st.seenDomains ⊆ (acceptCand fetch st c pid d).seenDomains := by
        show st.seenDomains ⊆
          (if candDomain d ≠ "" then insert (candDomain d) st.seenDomains
           else st.seenDomains)
        split
        · exact Finset.subset_insert _ _
        · exact Finset.Subset.refl _
      have hrec := ih (acceptCand fetch st c pid d)
        (hIds.trans (Finset.subset_insert _ _)) (hDoms.trans hDsub)
        (by
          intro c2 hc2 he2 hmem
          rcases Finset.mem_insert.mp hmem with heq | hmem2
          · exact hPidc c2 (List.mem_filter.mpr ⟨hc2, he2⟩) (hpidstr.trans heq.symm)
          · exact hLiveI c2 (List.mem_cons_of_mem c hc2) he2 hmem2)
        (by
          intro c2 hc2 he2 hne2 hmem
          have hmem2 : domFor det c2 ∈
              (if candDomain d ≠ "" then insert (candDomain d) st.seenDomains
               else st.seenDomains) := hmem
          by_cases hdne : candDomain d ≠ ""
          · rw [if_pos hdne] at hmem2
            rcases Finset.mem_insert.mp hmem2 with heq | hmem3
            · rcases hDomc c2 (List.mem_filter.mpr ⟨hc2, he2⟩) with h0 | h0
              · exact hdne (hdomfor ▸ h0)
              · exact h0 (hdomfor.trans heq.symm)
            · exact hLiveD c2 (List.mem_cons_of_mem c hc2) he2 hne2 hmem3
          · rw [if_neg hdne] at hmem2
            exact hLiveD c2 (List.mem_cons_of_mem c hc2) he2 hne2 hmem2)
        (List.pairwise_cons.mp hPid).2 (List.pairwise_cons.mp hDom).2
      have hrows : (acceptCand fetch st c pid d).rows =
          st.rows ++ [acceptedRow fetch c pid d] := rfl
      have hlen : (acceptCand fetch st c pid d).rows.length = st.rows.length + 1 := by
        rw [hrows]
        simp
      have hmap : (acceptCand fetch st c pid d).rows.map (fun r => r.place_id) =
          st.rows.map (fun r => r.place_id) ++ [pid] := by
        rw [hrows, List.map_append]
        rfl
      obtain ⟨m, hm⟩ : ∃ m, k - st.rows.length = m + 1 :=
        ⟨k - st.rows.length - 1, by omega⟩
      have hk3 : k - (acceptCand fetch st c pid d).rows.length = m := by
        rw [hlen]
        omega
      rw [List.foldl_cons, hstep, hrec, hmap, hk3, hfil, hm, List.take_succ_cons]
      simp [List.append_assoc, hpidstr]
    | false =>
      have hfil : (c :: cs).filter (eligibleB det S) = cs.filter (eligibleB det S) := by
        rw [List.filter_cons, if_neg (by simp [he])]
      rw [hfil] at hPid hDom
      rcases processCandidate_cases k det fetch st c with ⟨-, hstep⟩ |
        ⟨pid2, hc2, hpe2, hps2, -, hd2, hstep⟩ |
        ⟨pid2, d2, hc2, hpe2, hps2, -, hd2, hne2, hmem2, hstep⟩ |
        ⟨pid2, d2, hc2, hpe2, hps2, -, hd2, hdomok2, hstep⟩
      · rw [List.foldl_cons, hstep, hfil]
        exact ih st hIds hDoms
          (fun c2 hc2 => hLiveI c2 (List.mem_cons_of_mem _ hc2))
          (fun c2 hc2 => hLiveD c2 (List.mem_cons_of_mem _ hc2)) hPid hDom
      · rw [List.foldl_cons, hstep, hfil]
        exact ih (markSeen st pid2) (hIds.trans (Finset.subset_insert _ _)) hDoms
          (by
            intro c2 hc2m he2 hmem
            rcases Finset.mem_insert.mp hmem with heq | hmem3
            · obtain ⟨pid3, d3, hpid3, -, -, hd3, -⟩ := (eligibleB_iff det S c2).mp he2
              rw [pidStr_eq hpid3] at heq
              rw [heq, hd2] at hd3
              exact absurd hd3 (by simp)
            · exact hLiveI c2 (List.mem_cons_of_mem _ hc2m) he2 hmem3)
          (fun c2 hc2m he2 hne3 => hLiveD c2 (List.mem_cons_of_mem _ hc2m) he2 hne3)
          hPid hDom
      · rw [List.foldl_cons, hstep, hfil]
        exact ih (markSeen st pid2) (hIds.trans (Finset.subset_insert _ _)) hDoms
          (by
            intro c2 hc2m he2 hmem
            rcases Finset.mem_insert.mp hmem with heq | hmem3
            · obtain ⟨pid3, d3, hpid3, -, -, hd3, -⟩ := (eligibleB_iff det S c2).mp he2
              rw [pidStr_eq hpid3] at heq
              rw [heq, hd2] at hd3
              obtain rfl : d2 = d3 := by simpa using hd3
              have hdf : domFor det c2 = candDomain d2 := by
                rw [heq] at hpid3
                exact domFor_eq hpid3 hd2
              exact hLiveD c2 (List.mem_cons_of_mem _ hc2m) he2 (hdf ▸ hne2)
                (hdf ▸ hmem2)
            · exact hLiveI c2 (List.mem_cons_of_mem _ hc2m) he2 hmem3)
          (fun c2 hc2m he2 hne3 => hLiveD c2 (List.mem_cons_of_mem _ hc2m) he2 hne3)
          hPid hDom
      · exfalso
        have helig : eligibleB det S c = true := (eligibleB_iff det S c).mpr
          ⟨pid2, d2, hc2, hpe2, fun hmem => hps2 (hIds hmem), hd2,
           fun hand => hdomok2 ⟨hand.1, hDoms hand.2⟩⟩
        rw [he] at helig
        exact Bool.false_ne_true helig

/-- Two lists that are permutations of each other and both strictly
sorted on a rational key are equal. -/
lemma eq_of_perm_of_pairwise_lt {α : Type} (key : α → ℚ) :
    ∀ l1 l2 : List α, l1.Perm l2 →
      l1.Pairwise (fun a b => key a < key b) →
      l2.Pairwise (fun a b => key a < key b) → l1 = l2 := by
  intro l1
  induction l1 with
  | nil =>
    intro l2 hp _ _
    rw [hp.symm.eq_nil]
  | cons a t1 ih =>
    intro l2 hp h1 h2
    cases l2 with
    | nil => exact absurd hp.symm (by simp)
    | cons b t2 =>
      by_cases hab : a = b
      · subst hab
        rw [ih t2 hp.cons_inv (List.pairwise_cons.mp h1).2 (List.pairwise_cons.mp h2).2]
      · exfalso
        have hat2 : a ∈ t2 := by
          rcases List.mem_cons.mp (hp.subset (List.mem_cons_self a t1)) with heq | h0
          · exact absurd heq hab
          · exact h0
        have hbt1 : b ∈ t1 := by
          rcases List.mem_cons.mp (hp.symm.subset (List.mem_cons_self b t2)) with heq | h0
          · exact absurd heq.symm hab
          · exact h0
        exact lt_irrefl (key a)
          (((List.pairwise_cons.mp h1).1 b hbt1).trans ((List.pairwise_cons.mp h2).1 a hat2))

/-- C2 (amended).  The run emits at most `k` rows, and the statically
eligible candidates are processed in ascending distance order.  When the
eligible candidates additionally have pairwise distinct place ids and
pairwise distinct non-empty domains, the emitted rows are exactly the
first `k` eligible candidates in sorted order — so with `n ≥ k` eligible
candidates of pairwise distinct distances exactly the `k` closest are
emitted, skipped candidates consume no slots, and (distances being
distinct) the output is invariant under permuting the search
collaborator's result order. -/
theorem c2_daily_cap_selection (k : ℕ) (hav : ℚ × ℚ → ℚ × ℚ → ℚ) (home : ℚ × ℚ)
    (S : Seen) (places : List Place) (det : String → Option Details)
    (fetch : String → Option String) :
    (runMain k hav home S places det fetch).rows.length ≤ k ∧
    List.Sorted (fun x y : Cand => x.1 ≤ y.1)
      ((sortByDist (enrichPlaces hav home places)).filter (eligibleB det S)) ∧
    (((sortByDist (enrichPlaces hav home places)).filter (eligibleB det S)).Pairwise
        (fun a b => pidStr a ≠ pidStr b) →
     ((sortByDist (enrichPlaces hav home places)).filter (eligibleB det S)).Pairwise
        (fun a b => domFor det a = "" ∨ domFor det a ≠ domFor det b) →
     ((runMain k hav home S places det fetch).rows.map (fun r => r.place_id) =
        (((sortByDist (enrichPlaces hav home places)).filter (eligibleB det S)).take
          k).map pidStr) ∧
     (k ≤ ((sortByDist (enrichPlaces hav home places)).filter (eligibleB det S)).length →
        (runMain k hav home S places det fetch).rows.length = k) ∧
     (((sortByDist (enrichPlaces hav home places)).filter (eligibleB det S)).Pairwise
          (fun a b => a.1 ≠ b.1) →
      ∀ places2 : List Place, places2.Perm places →
        (runMain k hav home S places2 det fetch).rows.map (fun r => r.place_id) =
        (runMain k hav home S places det fetch).rows.map (fun r => r.place_id))) := by
  have hmain : ∀ places0 : List Place,
      ((sortByDist (enrichPlaces hav home places0)).filter (eligibleB det S)).Pairwise
        (fun a b => pidStr a ≠ pidStr b) →
      ((sortByDist (enrichPlaces hav home places0)).filter (eligibleB det S)).Pairwise
        (fun a b => domFor det a = "" ∨ domFor det a ≠ domFor det b) →
      (runMain k hav home S places0 det fetch).rows.map (fun r => r.place_id) =
        (((sortByDist (enrichPlaces hav home places0)).filter (eligibleB det S)).take
          k).map pidStr := by
    intro places0 hPid hDom
    have h := c2_core k det fetch S (sortByDist (enrichPlaces hav home places0))
      ⟨S.ids, S.domains, []⟩ (Finset.Subset.refl _) (Finset.Subset.refl _)
      (by
        intro c _ he
        obtain ⟨pid, d, hpid, -, hpS, -, -⟩ := (eligibleB_iff det S c).mp he
        rw [pidStr_eq hpid]
        exact hpS)
      (by
        intro c _ he hne
        obtain ⟨pid, d, hpid, -, -, hd, hdomS⟩ := (eligibleB_iff det S c).mp he
        rw [domFor_eq hpid hd] at hne ⊢
        exact fun hmem => hdomS ⟨hne, hmem⟩)
      hPid hDom
    simpa using h
  refine ⟨?_, ?_, ?_⟩
  · exact foldl_rows_length_le k det fetch _ _ (by simp)
  · exact List.Pairwise.sublist (List.filter_sublist _) (List.sorted_insertionSort _ _)
  · intro hPid hDom
    refine ⟨hmain places hPid hDom, ?_, ?_⟩
    · intro hlen
      have h := hmain places hPid hDom
      have h2 := congrArg List.length h
      simp only [List.length_map, List.length_take] at h2
      rw [h2]
      omega
    · intro hDist places2 hperm
      have hpermc : (sortByDist (enrichPlaces hav home places2)).Perm
          (sortByDist (enrichPlaces hav home places)) :=
        ((List.perm_insertionSort _ _).trans ((hperm.map _).trans
          (List.perm_insertionSort _ _).symm))
      have hpermel : ((sortByDist (enrichPlaces hav home places2)).filter
            (eligibleB det S)).Perm
          ((sortByDist (enrichPlaces hav home places)).filter (eligibleB det S)) :=
        hpermc.filter _
      have hsorted1 : ((sortByDist (enrichPlaces hav home places)).filter
          (eligibleB det S)).Pairwise (fun a b : Cand => a.1 < b.1) :=
        ((List.Pairwise.sublist (List.filter_sublist _)
          (List.sorted_insertionSort _ _)).and hDist).imp
          fun h => lt_of_le_of_ne h.1 h.2
      have hDist2 : ((sortByDist (enrichPlaces hav home places2)).filter
          (eligibleB det S)).Pairwise (fun a b : Cand => a.1 ≠ b.1) :=
        (hpermel.pairwise_iff fun h => Ne.symm h).mpr hDist
      have hsorted2 : ((sortByDist (enrichPlaces hav home places2)).filter
          (eligibleB det S)).Pairwise (fun a b : Cand => a.1 < b.1) :=
        ((List.Pairwise.sublist (List.filter_sublist _)
          (List.sorted_insertionSort _ _)).and hDist2).imp
          fun h => lt_of_le_of_ne h.1 h.2
      have heq : (sortByDist (enrichPlaces hav home places2)).filter (eligibleB det S) =
          (sortByDist (enrichPlaces hav home places)).filter (eligibleB det S) :=
        eq_of_perm_of_pairwise_lt (fun c => c.1) _ _ hpermel hsorted2 hsorted1
      have h2 := hmain places2 (by rw [heq]; exact hPid) (by rw [heq]; exact hDom)
      rw [h2, heq, hmain places hPid hDom]

theorem c2_daily_cap_selection_witness :
    (runMain 2 exHav exHome ⟨∅, ∅⟩ [exP1, exP2, exP3] exDet0 exFetch0).rows.map
      (fun r => r.place_id) = ["p1", "p2"] ∧
    (runMain 2 exHav exHome ⟨∅, ∅⟩ [exP1, exP2, exP3] exDet0 exFetch0).rows.length = 2 ∧
    (runMain 2 exHav exHome ⟨∅, ∅⟩ [exP2, exP3, exP1] exDet0 exFetch0).rows.map
      (fun r => r.place_id) = ["p1", "p2"] := by
  have h := (c2_daily_cap_selection 2 exHav exHome ⟨∅, ∅⟩ [exP1, exP2, exP3] exDet0
    exFetch0).2.2 (by decide) (by decide)
  refine ⟨h.1.trans (by decide), h.2.1 (by decide), ?_⟩
  exact (h.2.2 (by decide) [exP2, exP3, exP1] (by decide)).trans (h.1.trans (by decide))

/-- C2 refutation at a concrete input: three statically eligible
candidates with pairwise distinct distances, of which the two closest
share the website domain `d.com`.  With a daily cap of 2 the run emits
the first and the third candidate — the second is suppressed by the
in-run domain dedup — so the emitted rows are not the two closest
eligible candidates. -/
theorem c2_counterexample :
    ((sortByDist (enrichPlaces exHav exHome [exP1, exP2, exP3])).filter
        (eligibleB exDetD ⟨∅, ∅⟩)).map pidStr = ["p1", "p2", "p3"] ∧
    ((sortByDist (enrichPlaces exHav exHome [exP1, exP2, exP3])).filter
        (eligibleB exDetD ⟨∅, ∅⟩)).Pairwise (fun a b => a.1 ≠ b.1) ∧
    domFor exDetD (9990, some "p1", exP1) = "d.com" ∧
    domFor exDetD (9991, some "p2", exP2) = "d.com" ∧
    (runMain 2 exHav exHome ⟨∅, ∅⟩ [exP1, exP2, exP3] exDetD exFetch0).rows.map
        (fun r => r.place_id) = ["p1", "p3"] :=
  ⟨by decide, by decide, by decide, by decide, by decide⟩
